import Mathlib

/-!
Verification of `music21/analysis/reduceChords.py` (the `ChordReducer` class).

The source is shallowly embedded over exact rationals (`ℚ` stands for the
Python floats used for offsets, quarter lengths and weights) and plain lists
(Python lists, tuples and — crucially — dicts/Counters, whose iteration order
is modelled as insertion order).  External capabilities that the source
consumes from the rest of music21 (the offset tree, the pitch model, stream
durations) are modelled from the specification where noted; everything else
is translated line by line from `reduceChords.py`.
-/

namespace ReduceChords

/-! ### Generic list helpers

`insertLe`/`insSort` is a stable insertion sort: `insSort le l` places `x`
before the first `y` with `le x y = true`.  With `le a b := (weight b ≤
weight a)` this is exactly Python's stable `sorted(..., key=weight,
reverse=True)`; with `le := (· ≤ ·)` it is plain ascending sort. -/

def insertLe (le : α → α → Bool) (x : α) : List α → List α
  | [] => [x]
  | y :: ys => if le x y then x :: y :: ys else y :: insertLe le x ys

def insSort (le : α → α → Bool) (l : List α) : List α :=
  l.foldr (insertLe le) []

/-- Association-list lookup with default `0`, modelling `dict.__getitem__`
on a dictionary whose keys are known to be present (absent keys give `0`,
matching the `presentPCs[p] = 0.0` initialisation pattern). -/
def lookupD (l : List (List Nat × ℚ)) (p : List Nat) : ℚ :=
  match l with
  | [] => 0
  | (q, v) :: rest => if q = p then v else lookupD rest p

/-- The update `addWeight acc p v` models `acc[p] = acc.get(p, 0.0) + v` on an
insertion-ordered dictionary: an existing key keeps its position, a new key
is appended at the end. -/
def addWeight (acc : List (List Nat × ℚ)) (p : List Nat) (v : ℚ) :
    List (List Nat × ℚ) :=
  match acc with
  | [] => [(p, v)]
  | (q, w) :: rest => if q = p then (q, w + v) :: rest else (q, w) :: addWeight rest p v

/-! ### Events of a flattened measure

`MEvent` models one element of the flattened single-part measure handed to
`ChordReducer.reduceMeasureToNChords`: a chord (or rest) with a stream
offset and quarter length.  `pitches` holds the pitch-space values of the
chord's notes (`pitch.ps`, an integer for the inputs the reducer handles);
`consonant` and `beatStrength` record the values of the external
`chordObject.isConsonant()` and `chordObject.beatStrength` capabilities,
which the core consumes but does not compute (spec: the pitch/metre model
is out of scope).  The tie and accidental bookkeeping performed on the
chord's constituent notes is part of the opaque element payload and is not
modelled. -/
structure MEvent where
  offset : ℚ
  quarterLength : ℚ
  pitches : List Nat
  consonant : Bool
  beatStrength : ℚ
  isRest : Bool
deriving DecidableEq

/-- A flattened measure: its events plus the value of the external
`measureObject.duration.quarterLength` capability.  Modelled from the spec:
stream duration is supplied by the excluded notation layer, and per spec
§4.3 step 4 the degenerate-measure rest spans the measure's full duration,
so `duration` is the measure's full duration. -/
structure Measure where
  events : List MEvent
  duration : ℚ

/-- The view `measureObject.notes`: the sub-stream of pitched events (rests are
excluded from grouping and scoring). -/
def notesOf (m : Measure) : List MEvent :=
  m.events.filter (fun e => !e.isRest)

/-- Ascending insertion sort on `Nat`. -/
def sortNat (l : List Nat) : List Nat :=
  insSort (fun a b => decide (a ≤ b)) l

/-- Removes adjacent duplicates; on a sorted list this yields the sorted,
duplicate-free canonical form. -/
def dedupAdj {α : Type} [DecidableEq α] : List α → List α
  | [] => []
  | [x] => [x]
  | x :: y :: xs => if x = y then dedupAdj (y :: xs) else x :: dedupAdj (y :: xs)

/-- The key `tuple(set(x.pitchClass for x in c.pitches))` — the pitch-class set of
an event, in canonical (sorted, duplicate-free) form; two Python set-tuples
are equal exactly when the underlying sets are, which this canonical form
captures. -/
def pcSet (pitches : List Nat) : List Nat :=
  dedupAdj (sortNat (pitches.map (· % 12)))

/-! ### `ChordReducer.computeMeasureChordWeights`

The source iterates the measure's events in order, tracking
`self.positionInMeasure = i` and `self.numberOfElementsInMeasure = n`, and
accumulates `presentPCs[p] += weightAlgorithm(c)` into a dict.  A weight
algorithm is therefore a function of the position, the element count and
the event. -/

def cmwGo (w : Nat → Nat → MEvent → ℚ) (n : Nat) :
    Nat → List MEvent → List (List Nat × ℚ) → List (List Nat × ℚ)
  | _, [], acc => acc
  | i, e :: rest, acc => cmwGo w n (i + 1) rest (addWeight acc (pcSet e.pitches) (w i n e))

def computeMeasureChordWeights (w : Nat → Nat → MEvent → ℚ)
    (events : List MEvent) : List (List Nat × ℚ) :=
  cmwGo w events.length 0 events []

/-- The four provided weight strategies (`quarterLengthOnly`,
`quarterLengthBeatStrength`, `quarterLengthBeatStrengthMeasurePosition`,
`qlbsmpConsonance`), read off lines 415–439 of the source. -/
def quarterLengthOnly (_i _n : Nat) (e : MEvent) : ℚ :=
  e.quarterLength

def quarterLengthBeatStrength (_i _n : Nat) (e : MEvent) : ℚ :=
  e.quarterLength * e.beatStrength

def quarterLengthBeatStrengthMeasurePosition (i n : Nat) (e : MEvent) : ℚ :=
  if i = n - 1 then e.quarterLength else quarterLengthBeatStrength i n e

def qlbsmpConsonance (i n : Nat) (e : MEvent) : ℚ :=
  (if i = n - 1 then e.quarterLength
   else quarterLengthBeatStrengthMeasurePosition i n e) *
    (if e.consonant then 1 else 1 / 10)

/-- Modelled from the spec's words for claim C8: the weight of a
pitch-class set is the sum of the weights of its events, accumulated by a
left fold in event encounter order (never reassociated).  This is the
comparison definition for the refinement claim; the source-side definition
is `computeMeasureChordWeights`. -/
def specEncGo (w : Nat → Nat → MEvent → ℚ) (n : Nat) (p : List Nat) :
    Nat → ℚ → List MEvent → ℚ
  | _, acc, [] => acc
  | i, acc, e :: rest =>
      specEncGo w n p (i + 1)
        (if pcSet e.pitches = p then acc + w i n e else acc) rest

def specEncounterOrderWeight (w : Nat → Nat → MEvent → ℚ) (n : Nat)
    (p : List Nat) (events : List MEvent) : ℚ :=
  specEncGo w n p 0 0 events

/-! ### `ChordReducer.reduceMeasureToNChords`

The source (lines 441–543): filter the measure to its notes, accumulate
chord weights, sort the pitch-class sets by weight (Python's stable sort,
descending), keep the top `min(numChords, len(chordWeights))`, trim those
whose weight falls below `trimBelow * maxChordWeight` (a `takeWhile`, since
the loop `break`s at the first failure), then sweep the measure greedily,
and finally even out syncopated chord starts.  The degenerate branch
(`len(maxNChords) == 0`) replaces everything with a single rest spanning
the measure's duration. -/

/-- The relation `le` for Python's `sorted(..., key=get, reverse=True)`: `a` goes before
`b` when `a`'s weight is at least `b`'s; with the stable `insSort` this
keeps equal-weight entries in dictionary (insertion) order. -/
def weightDescLe (a b : List Nat × ℚ) : Bool :=
  decide (b.2 ≤ a.2)

def chordWeightsOf (w : Nat → Nat → MEvent → ℚ) (m : Measure) :
    List (List Nat × ℚ) :=
  computeMeasureChordWeights w (notesOf m)

def sortedChordWeightsOf (w : Nat → Nat → MEvent → ℚ) (m : Measure) :
    List (List Nat × ℚ) :=
  insSort weightDescLe (chordWeightsOf w m)

/-- The slice `sortedChordWeights[:numChords]` after `numChords` has been clamped to
`len(chordWeights)`. -/
def maxNChordsOf (numChords : Nat) (w : Nat → Nat → MEvent → ℚ)
    (m : Measure) : List (List Nat) :=
  ((sortedChordWeightsOf w m).map Prod.fst).take
    (min numChords (chordWeightsOf w m).length)

/-- The trimming loop: keep a prefix of `maxNChords` whose weights stay at
or above `maxChordWeight * trimBelow`; the loop breaks at the first
failure. -/
def trimmedMaxChordsOf (numChords : Nat) (w : Nat → Nat → MEvent → ℚ)
    (trimBelow : ℚ) (m : Measure) : List (List Nat) :=
  match maxNChordsOf numChords w m with
  | [] => []
  | p0 :: _ =>
      (maxNChordsOf numChords w m).takeWhile
        (fun p => decide (lookupD (chordWeightsOf w m) p0 * trimBelow ≤
          lookupD (chordWeightsOf w m) p))

/-- The greedy sweep (lines 504–532).  The iteration is over the measure's
note list as it stood when the loop began (the doctest at lines 461–470
fixes this semantics); a discarded event only adds its quarter length to
`currentGreedyChordNewLength`.  The state is the pending kept chord
(`currentGreedyChord`, whose final quarter length is assigned when the next
chord is kept or at the end of the loop) and the running new length.
`currentGreedyChordPCs` always equals the pending chord's pitch-class set,
so it is not tracked separately. -/
def keepCond (trimmed : List (List Nat)) (pending : Option MEvent)
    (c : MEvent) : Bool :=
  decide (pcSet c.pitches ∈ trimmed) &&
    (match pending with
     | none => true
     | some cur => decide (pcSet cur.pitches ≠ pcSet c.pitches))

def greedyGo (trimmed : List (List Nat)) :
    List MEvent → Option MEvent → ℚ → List MEvent
  | [], none, _ => []
  | [], some cur, len => [{ cur with quarterLength := len }]
  | c :: rest, pending, len =>
    if keepCond trimmed pending c then
      match pending with
      | none =>
          let len1 := if c.offset ≠ 0 then c.offset else len
          greedyGo trimmed rest (some { c with offset := 0 }) (len1 + c.quarterLength)
      | some cur =>
          { cur with quarterLength := len } ::
            greedyGo trimmed rest (some c) (0 + c.quarterLength)
    else
      greedyGo trimmed rest pending (len + c.quarterLength)

/-- Python `int()` on the rationals standing for floats: truncation toward
zero. -/
def truncQ (q : ℚ) : ℤ :=
  if 0 ≤ q then ⌊q⌋ else ⌈q⌉

/-- Python `round` to the nearest integer, halves to even, applied to
`q * 1000` — this models `round(x, 3)` on the scaled value. -/
def roundHalfEven (q : ℚ) : ℤ :=
  if q - ⌊q⌋ < 1 / 2 then ⌊q⌋
  else if 1 / 2 < q - ⌊q⌋ then ⌊q⌋ + 1
  else if ⌊q⌋ % 2 = 0 then ⌊q⌋ else ⌊q⌋ + 1

/-- The list `[0.250, 0.125, 0.333, 0.063, 0.062]` scaled by 1000. -/
def syncopationFractions : List ℤ :=
  [250, 125, 333, 63, 62]

/-- The `even chord lengths` post-pass (lines 534–542), carried out over
consecutive pairs: `prev` is `measureObject[i - 1]` with all earlier
mutations applied. -/
def evenGo : MEvent → List MEvent → List MEvent
  | prev, [] => [prev]
  | prev, c :: rest =>
    let syncop := c.offset - (truncQ c.offset : ℚ)
    if roundHalfEven (syncop * 1000) ∈ syncopationFractions then
      { prev with quarterLength := prev.quarterLength - syncop } ::
        evenGo { c with offset := (truncQ c.offset : ℚ),
                        quarterLength := c.quarterLength + syncop } rest
    else
      prev :: evenGo c rest

def evenChordLengths : List MEvent → List MEvent
  | [] => []
  | c :: rest => evenGo c rest

/-- The rest inserted for a degenerate measure (lines 490–496): a single
rest at offset `0` whose quarter length is the stream duration. -/
def degenerateRest (d : ℚ) : MEvent :=
  { offset := 0, quarterLength := d, pitches := [], consonant := false,
    beatStrength := 0, isRest := true }

def reduceMeasureToNChords (numChords : Nat) (w : Nat → Nat → MEvent → ℚ)
    (trimBelow : ℚ) (m : Measure) : List MEvent :=
  match maxNChordsOf numChords w m with
  | [] => [degenerateRest m.duration]
  | _ :: _ =>
      evenChordLengths
        (greedyGo (trimmedMaxChordsOf numChords w trimBelow m) (notesOf m) none 0)

/-- The pitch-class sets realised by the non-rest events of a reduced
measure. -/
def outputPcsOf (numChords : Nat) (w : Nat → Nat → MEvent → ℚ)
    (trimBelow : ℚ) (m : Measure) : List (List Nat) :=
  ((reduceMeasureToNChords numChords w trimBelow m).filter
    (fun e => !e.isRest)).map (fun e => pcSet e.pitches)

def sumQL (l : List MEvent) : ℚ :=
  (l.map MEvent.quarterLength).sum

/-- Contiguity of the measure's events: each event starts where the
previous one stops. -/
def follows (a b : MEvent) : Prop :=
  b.offset = a.offset + a.quarterLength

/-- The two fields the greedy sweep and the post-pass never touch. -/
def skeleton (e : MEvent) : List Nat × Bool :=
  (e.pitches, e.isRest)

/-! ### Concrete measures

`measureACE` is `testMeasureStream1` from the source: a 4/4 measure holding
the chord C4 E4 G4 C5 for two beats, the dissonant chord C4 E4 F4 B4 for
one beat, and C4 E4 G4 C5 again for one beat.  Beat strengths 1, 1/2, 1/4
are the 4/4 values music21 assigns at offsets 0, 2, 3. -/

def chordACE : MEvent :=
  { offset := 0, quarterLength := 2, pitches := [60, 64, 67, 72],
    consonant := true, beatStrength := 1, isRest := false }

def chordDiss : MEvent :=
  { offset := 2, quarterLength := 1, pitches := [60, 64, 65, 71],
    consonant := false, beatStrength := 1 / 2, isRest := false }

def chordACE2 : MEvent :=
  { offset := 3, quarterLength := 1, pitches := [60, 64, 67, 72],
    consonant := true, beatStrength := 1 / 4, isRest := false }

def measureACE : Measure :=
  { events := [chordACE, chordDiss, chordACE2], duration := 4 }

/-- Python tuple comparison (lexicographic) on pitch-class sets — the
"natural sort order" the claim invokes.  Modelled from the claim's words;
the source never compares pitch-class sets. -/
def lexLe : List Nat → List Nat → Bool
  | [], _ => true
  | _ :: _, [] => false
  | a :: as, b :: bs => if a < b then true else if a = b then lexLe as bs else false

/-- Modelled from the claim's words for C6: rank by weight descending,
breaking weight ties by the pitch-class sets' natural sort order. -/
def specNaturalOrderSort (l : List (List Nat × ℚ)) : List (List Nat × ℚ) :=
  insSort (fun a b => decide (b.2 < a.2) || (decide (a.2 = b.2) && lexLe a.1 b.1)) l

/-- A measure with two equally weighted pitch-class sets, `{2}` (heard
first) and `{0}` (heard second, but naturally sorted first). -/
def chordRe : MEvent :=
  { offset := 0, quarterLength := 1, pitches := [62], consonant := true,
    beatStrength := 1, isRest := false }

def chordDo : MEvent :=
  { offset := 1, quarterLength := 1, pitches := [60], consonant := true,
    beatStrength := 1 / 2, isRest := false }

def measureEqW : Measure :=
  { events := [chordRe, chordDo], duration := 2 }

/-! ### `ChordReducer._applyTies` (lines 113–120)

The post-pass walks every adjacent pair of note/chord/rest elements of a
part (`_iterateElementsPairwise`) and sets a tie-start marker on the
earlier one when both are Notes with equal pitch, or both are Chords with
equal (ordered) pitch tuples.  A Note followed by an equal-sounding Chord
— or any other mixed pair — is not tied. -/

inductive NElem where
  | noteE (p : Nat) (tieStart : Bool)
  | chordE (ps : List Nat) (tieStart : Bool)
  | restE (tieStart : Bool)
deriving DecidableEq

def setTieStart : NElem → NElem
  | .noteE p _ => .noteE p true
  | .chordE ps _ => .chordE ps true
  | .restE _ => .restE true

def hasTieStart : NElem → Bool
  | .noteE _ t => t
  | .chordE _ t => t
  | .restE t => t

/-- The guard of `_applyTies`: `one.isNote and two.isNote and one.pitch ==
two.pitch`, or `one.isChord and two.isChord and one.pitches ==
two.pitches`. -/
def tiePairCond : NElem → NElem → Bool
  | .noteE p _, .noteE q _ => decide (p = q)
  | .chordE ps _, .chordE qs _ => decide (ps = qs)
  | _, _ => false

def applyTiesGo : NElem → List NElem → List NElem
  | one, [] => [one]
  | one, two :: rest =>
      (if tiePairCond one two then setTieStart one else one) :: applyTiesGo two rest

def applyTies : List NElem → List NElem
  | [] => []
  | one :: rest => applyTiesGo one rest

/-- The claim's notion of an element's pitch content (a rest has none).
Modelled from the claim's words for C9. -/
def pitchContent : NElem → List Nat
  | .noteE p _ => [p]
  | .chordE ps _ => ps
  | .restE _ => []

/-! ### The pass sequence of `ChordReducer.__call__` (lines 73–109)

The body of `__call__` invokes the structural passes in this exact
textual order (lines 81–87): `removeVerticalDissonances`, `fillBassGaps`,
`removeShortTimespans`, `fillBassGaps` a second time,
`fillOuterMeasureGaps`, `alignHockets`, `fillInnerMeasureGaps`. -/

inductive ReductionPass where
  | removeVerticalDissonancesP
  | fillBassGapsP
  | removeShortTimespansP
  | fillOuterMeasureGapsP
  | alignHocketsP
  | fillInnerMeasureGapsP
deriving DecidableEq

/-- The pass invocations of `ChordReducer.__call__`, one entry per line
81–87 of the source, in textual order. -/
def callPassSequence : List ReductionPass :=
  [.removeVerticalDissonancesP, .fillBassGapsP, .removeShortTimespansP,
   .fillBassGapsP, .fillOuterMeasureGapsP, .alignHocketsP,
   .fillInnerMeasureGapsP]

/-- Modelled from the claim's words for C1: the six passes, each exactly
once, dissonance removal, bass-gap filling, short-timespan pruning, outer
gap filling, inner gap filling, hocket alignment. -/
def specClaimedPassSequence : List ReductionPass :=
  [.removeVerticalDissonancesP, .fillBassGapsP, .removeShortTimespansP,
   .fillOuterMeasureGapsP, .fillInnerMeasureGapsP, .alignHocketsP]

/-! ### The offset tree

The `OffsetTree` the passes mutate lives in `music21/analysis/offsetTree.py`,
which is not part of this source; its data model and queries are modelled
from the spec (§3, §4.1): a timespan records its interval, owning part,
pitch content, beat strength and derived measure attributes; a verticality
at offset `o` consists of the timespans starting exactly at `o` plus those
overlapping `o` (`start < o < stop`), its pitch set is their pitch union,
and its bass timespan is the one owning the lowest pitch.  Consonance is
an external capability on pitch sets and is a parameter. -/

structure Timespan where
  part : Nat
  startOffset : ℚ
  stopOffset : ℚ
  pitches : List Nat
  beatStrength : ℚ
  measureNumber : Nat
  measureStartOffset : ℚ
  measureStopOffset : ℚ
deriving DecidableEq

def tsDuration (ts : Timespan) : ℚ :=
  ts.stopOffset - ts.startOffset

/-- Modelled from the spec: the timespans active at an instant — those
starting exactly there plus those strictly overlapping it. -/
def activeAt (tree : List Timespan) (o : ℚ) : List Timespan :=
  tree.filter (fun ts => decide (ts.startOffset = o) ||
    (decide (ts.startOffset < o) && decide (o < ts.stopOffset)))

/-- Modelled from the spec: the verticality's pitch set, in canonical
(sorted, duplicate-free) form. -/
def vertPitchSet (tree : List Timespan) (o : ℚ) : List Nat :=
  dedupAdj (sortNat (((activeAt tree o).map Timespan.pitches).flatten))

/-- One iteration of the loop of `removeVerticalDissonances`
(lines 620–627): if the verticality at `o` is consonant nothing happens;
otherwise every timespan starting at `o` whose lowest pitch differs from
the verticality's lowest pitch is removed. -/
def dissonanceStep (cons : List Nat → Bool) (tree : List Timespan) (o : ℚ) :
    List Timespan :=
  if cons (vertPitchSet tree o) then tree
  else tree.filter (fun ts => !(decide (ts.startOffset = o) &&
    decide (ts.pitches.min? ≠ (vertPitchSet tree o).min?)))

/-- The distinct start offsets of the tree, in increasing order —
modelled from the spec's `iterateVerticalities`. -/
def startOffsetsOf (tree : List Timespan) : List ℚ :=
  dedupAdj (insSort (fun a b => decide (a ≤ b)) (tree.map Timespan.startOffset))

/-- The pass `ChordReducer.removeVerticalDissonances` (lines 615–627): iterate the
verticalities in offset order, removing upper dissonant start timespans;
each step sees the mutations of the earlier ones (the spec requires
verticalities to be recomputed from the live index). -/
def removeVerticalDissonances (cons : List Nat → Bool)
    (tree : List Timespan) : List Timespan :=
  (startOffsetsOf tree).foldl (dissonanceStep cons) tree

/-- A tree with a single dissonant verticality at offset `0`: the part-0
timespan carries the lowest pitch `50`, the part-1 timespan only the
upper pitch `64`.  Consonance capability: a pitch set is consonant only
when it has at most one pitch. -/
def tsLow : Timespan :=
  { part := 0, startOffset := 0, stopOffset := 2, pitches := [50],
    beatStrength := 1, measureNumber := 1, measureStartOffset := 0,
    measureStopOffset := 4 }

def tsHigh : Timespan :=
  { part := 1, startOffset := 0, stopOffset := 2, pitches := [64],
    beatStrength := 1, measureNumber := 1, measureStartOffset := 0,
    measureStopOffset := 4 }

def dissTree : List Timespan := [tsLow, tsHigh]

def consAtMostOne : List Nat → Bool :=
  fun ps => decide (ps.length ≤ 1)

/-! ### `ChordReducer.removeShortTimespans` (lines 566–613)

The pass is translated together with a behaviour that follows from the
source's own variable scoping: the group loop's line 605,
`bestPitches, duration = counter.most_common()[0]`, rebinds the enclosing
function's `duration` parameter — the very threshold the key function
`procedure` closes over.  `itertools.groupby` computes keys lazily, so
every element whose key is computed after an entire-tiling group has been
collapsed is classified against the rebound threshold (the collapsed
group's best cumulative duration), not against the caller's threshold;
the boundary element that closed a group was already classified with the
old value.  The embedding below therefore threads the threshold through
the grouping as state: a new element's key is computed with the current
threshold first, and only then is a completed group processed (possibly
updating the threshold). -/

/-- Modelled from the spec: `verticality.bassTimespan`, the active
timespan owning the verticality's lowest pitch (the first such in index
order when several contain it); `none` when nothing pitched is active. -/
def bassTimespanAt (tree : List Timespan) (o : ℚ) : Option Timespan :=
  match (vertPitchSet tree o).min? with
  | none => none
  | some low => ((activeAt tree o).filter (fun ts => decide (low ∈ ts.pitches))).head?

/-- The grouping key of `procedure` (lines 574–582): measure number,
shortness against the current threshold, and the verticality's bass
timespan, nulled out when the bass itself is short. -/
structure GroupKey where
  measureNumber : Nat
  isShort : Bool
  bass : Option Timespan
deriving DecidableEq

def shortKey (tree : List Timespan) (thr : ℚ) (ts : Timespan) : GroupKey :=
  { measureNumber := ts.measureNumber,
    isShort := decide (tsDuration ts < thr),
    bass := match bassTimespanAt tree ts.startOffset with
            | none => none
            | some b => if tsDuration b < thr then none else some b }

/-- The selection `counter.most_common()[0]`: the Counter's entries sorted by value,
descending and stable (ties keep insertion order, the order pitch tuples
were first counted). -/
def mostCommon (counter : List (List Nat × ℚ)) : Option (List Nat × ℚ) :=
  (insSort weightDescLe counter).head?

/-- The body of the group loop (lines 586–612) for one completed group:
long groups are skipped; a short group that exactly tiles its measure (or
its bass timespan) keeps only the timespans carrying the pitch tuple with
the greatest cumulative duration — and rebinds the threshold to that
duration (line 605) — while any other short group is removed whole.
Returns the timespans to remove and the threshold now in effect. -/
def processShortGroup (key : GroupKey) (grp : List Timespan) (thr : ℚ) :
    List Timespan × ℚ :=
  if key.isShort then
    match grp with
    | [] => ([], thr)
    | g0 :: _ =>
      let gl := grp.getLastD g0
      let entire :=
        (decide (g0.startOffset = g0.measureStartOffset) &&
          decide (gl.stopOffset = g0.measureStopOffset)) ||
        (match key.bass with
         | some b => decide (g0.startOffset = b.startOffset) &&
             decide (gl.stopOffset = b.stopOffset)
         | none => false)
      if entire then
        match mostCommon
            (grp.foldl (fun acc ts => addWeight acc ts.pitches (tsDuration ts)) []) with
        | none => ([], thr)
        | some best => (grp.filter (fun ts => decide (ts.pitches ≠ best.1)), best.2)
      else (grp, thr)
  else ([], thr)

/-- The lazy grouping of one part's remaining timespans: the next
element's key is computed with the current threshold; if it matches the
open group's key the element joins the group, otherwise the open group is
processed first (which may change the threshold for all later keys). -/
def groupShortGo (tree : List Timespan) :
    List Timespan → GroupKey → List Timespan → ℚ → List Timespan × ℚ
  | [], curKey, curGrp, thr => processShortGroup curKey curGrp thr
  | e :: rest, curKey, curGrp, thr =>
    let k := shortKey tree thr e
    if k = curKey then groupShortGo tree rest curKey (curGrp ++ [e]) thr
    else
      let pr := processShortGroup curKey curGrp thr
      let nxt := groupShortGo tree rest k [e] pr.2
      (pr.1 ++ nxt.1, nxt.2)

def partShortRemovals (tree : List Timespan) (partList : List Timespan)
    (thr : ℚ) : List Timespan × ℚ :=
  match partList with
  | [] => ([], thr)
  | e :: rest => groupShortGo tree rest (shortKey tree thr e) [e] thr

/-- The part identifiers, in a canonical order (the Python dict order of
`toPartwiseOffsetTrees` is modelled as sorted). -/
def partIdsOf (tree : List Timespan) : List Nat :=
  dedupAdj (sortNat (tree.map Timespan.part))

/-- One part's timespans in offset order. -/
def partTimespansOf (tree : List Timespan) (p : Nat) : List Timespan :=
  insSort (fun a b => decide (a.startOffset ≤ b.startOffset))
    (tree.filter (fun ts => decide (ts.part = p)))

/-- The removal accumulation over all parts; the (rebindable!) threshold
persists from one part to the next, as it does in the source. -/
def removeShortGo (tree : List Timespan) : List Nat → ℚ → List Timespan
  | [], _ => []
  | p :: ps, thr =>
    let pr := partShortRemovals tree (partTimespansOf tree p) thr
    pr.1 ++ removeShortGo tree ps pr.2

/-- The pass `ChordReducer.removeShortTimespans(tree, duration)`: collect the
removals part by part, then remove them from the tree in one batch
(line 613). -/
def removeShortTimespans (tree : List Timespan) (thr : ℚ) : List Timespan :=
  tree.filter (fun ts => decide (ts ∉ removeShortGo tree (partIdsOf tree) thr))

/-! The failing input for claim C7.  One part; measures are the spans
`[0,8)`, `[8,16)`, `[16,24)` and the threshold is `4`.  Measure 1 is
tiled by four short timespans (`tsA tsB tsC tsE`, pitch tuples `[60]`,
`[64]`, `[60]`, `[60]`), so it is collapsed to the `[60]` timespans, and
line 605 rebinds the threshold to their cumulative duration `6`.  The
long timespan `tsX` (duration `8`) closed that group before the
rebinding, so it keeps its old key; but `tsV` (duration `5 ≥ 4`) is
classified against the drifted threshold `6`, counted as short, and —
since it does not tile its measure — removed, although the docstring
(and the claim) promise that timespans at or above the caller's
threshold are never removed. -/

def tsA : Timespan :=
  { part := 0, startOffset := 0, stopOffset := 2, pitches := [60],
    beatStrength := 0, measureNumber := 1, measureStartOffset := 0,
    measureStopOffset := 8 }

def tsB : Timespan :=
  { part := 0, startOffset := 2, stopOffset := 4, pitches := [64],
    beatStrength := 0, measureNumber := 1, measureStartOffset := 0,
    measureStopOffset := 8 }

def tsC : Timespan :=
  { part := 0, startOffset := 4, stopOffset := 6, pitches := [60],
    beatStrength := 0, measureNumber := 1, measureStartOffset := 0,
    measureStopOffset := 8 }

def tsE : Timespan :=
  { part := 0, startOffset := 6, stopOffset := 8, pitches := [60],
    beatStrength := 0, measureNumber := 1, measureStartOffset := 0,
    measureStopOffset := 8 }

def tsX : Timespan :=
  { part := 0, startOffset := 8, stopOffset := 16, pitches := [62],
    beatStrength := 0, measureNumber := 2, measureStartOffset := 8,
    measureStopOffset := 16 }

def tsV : Timespan :=
  { part := 0, startOffset := 16, stopOffset := 21, pitches := [65],
    beatStrength := 0, measureNumber := 3, measureStartOffset := 16,
    measureStopOffset := 24 }

def driftTree : List Timespan := [tsA, tsB, tsC, tsE, tsX, tsV]

theorem mem_insertLe (le : α → α → Bool) (x a : α) :
    ∀ l : List α, a ∈ insertLe le x l ↔ a = x ∨ a ∈ l := by
  intro l
  induction l with
  | nil => simp [insertLe]
  | cons y ys ih =>
    simp only [insertLe]
    by_cases h : le x y = true
    · simp only [if_pos h, List.mem_cons]
    · simp only [if_neg h, List.mem_cons, ih]
      tauto

theorem mem_insSort (le : α → α → Bool) (l : List α) (a : α) :
    a ∈ insSort le l ↔ a ∈ l := by
  induction l with
  | nil => simp [insSort]
  | cons y ys ih =>
    simp only [insSort, List.foldr] at *
    rw [mem_insertLe]
    simp only [List.mem_cons, ih]

theorem length_insertLe (le : α → α → Bool) (x : α) :
    ∀ l : List α, (insertLe le x l).length = l.length + 1 := by
  intro l
  induction l with
  | nil => rfl
  | cons y ys ih =>
    simp only [insertLe]
    by_cases h : le x y = true <;> simp [h, ih]

theorem length_insSort (le : α → α → Bool) (l : List α) :
    (insSort le l).length = l.length := by
  induction l with
  | nil => rfl
  | cons y ys ih => simp [insSort, List.foldr] at *; simp [length_insertLe, ih]

theorem lookupD_addWeight (acc : List (List Nat × ℚ)) (p q : List Nat) (v : ℚ) :
    lookupD (addWeight acc q v) p =
      if q = p then lookupD acc p + v else lookupD acc p := by
  induction acc with
  | nil =>
    by_cases h : q = p <;> simp [addWeight, lookupD, h]
  | cons hd tl ih =>
    obtain ⟨r, w⟩ := hd
    by_cases hrq : r = q
    · subst hrq
      by_cases hp : r = p
      · subst hp; simp [addWeight, lookupD]
      · simp [addWeight, lookupD, hp]
    · simp only [addWeight, if_neg hrq, lookupD]
      by_cases hp : r = p
      · have hqp : ¬ q = p := by rw [← hp]; exact fun h => hrq h.symm
        simp [hp, hqp]
      · simp [hp, ih]

theorem keys_addWeight (acc : List (List Nat × ℚ)) (p q : List Nat) (v : ℚ) :
    q ∈ (addWeight acc p v).map Prod.fst ↔
      q ∈ acc.map Prod.fst ∨ q = p := by
  induction acc with
  | nil => simp [addWeight]
  | cons hd tl ih =>
    obtain ⟨r, w⟩ := hd
    by_cases hrp : r = p
    · subst hrp
      simp [addWeight]
      tauto
    · simp [addWeight, hrp, ih]
      tauto

theorem addWeight_ne_nil (acc : List (List Nat × ℚ)) (p : List Nat) (v : ℚ) :
    addWeight acc p v ≠ [] := by
  cases acc with
  | nil => simp [addWeight]
  | cons hd tl =>
    obtain ⟨q, w⟩ := hd
    by_cases h : q = p <;> simp [addWeight, h]

theorem mem_dedupAdj {α : Type} [DecidableEq α] :
    ∀ (l : List α) (x : α), x ∈ dedupAdj l ↔ x ∈ l := by
  intro l
  induction l with
  | nil => intro x; simp [dedupAdj]
  | cons a as ih =>
    intro x
    cases as with
    | nil => simp [dedupAdj]
    | cons b bs =>
      by_cases hab : a = b
      · subst hab
        have h1 : dedupAdj (a :: a :: bs) = dedupAdj (a :: bs) := by
          simp [dedupAdj]
        rw [h1, ih]
        simp only [List.mem_cons]
        tauto
      · simp only [dedupAdj, if_neg hab, List.mem_cons, ih]

theorem cmwGo_lookup (w : Nat → Nat → MEvent → ℚ) (n : Nat) (p : List Nat) :
    ∀ (events : List MEvent) (i : Nat) (acc : List (List Nat × ℚ)),
      lookupD (cmwGo w n i events acc) p = specEncGo w n p i (lookupD acc p) events := by
  intro events
  induction events with
  | nil => intro i acc; rfl
  | cons e rest ih =>
    intro i acc
    simp only [cmwGo, specEncGo, ih]
    rw [lookupD_addWeight]

/-! ### Lemmas about the greedy sweep -/

theorem greedyGo_cons_none (trimmed : List (List Nat)) (c : MEvent)
    (rest : List MEvent) (len : ℚ) :
    greedyGo trimmed (c :: rest) none len =
      if keepCond trimmed none c = true then
        greedyGo trimmed rest (some { c with offset := 0 })
          ((if c.offset ≠ 0 then c.offset else len) + c.quarterLength)
      else greedyGo trimmed rest none (len + c.quarterLength) := rfl

theorem greedyGo_cons_some (trimmed : List (List Nat)) (c cur : MEvent)
    (rest : List MEvent) (len : ℚ) :
    greedyGo trimmed (c :: rest) (some cur) len =
      if keepCond trimmed (some cur) c = true then
        { cur with quarterLength := len } ::
          greedyGo trimmed rest (some c) (0 + c.quarterLength)
      else greedyGo trimmed rest (some cur) (len + c.quarterLength) := rfl

theorem greedyGo_pcs_mem (trimmed : List (List Nat)) :
    ∀ (events : List MEvent) (pending : Option MEvent) (len : ℚ),
      (∀ cur, pending = some cur → pcSet cur.pitches ∈ trimmed) →
      ∀ e ∈ greedyGo trimmed events pending len, pcSet e.pitches ∈ trimmed := by
  intro events
  induction events with
  | nil =>
    intro pending len hp e he
    cases pending with
    | none => simp [greedyGo] at he
    | some cur =>
      simp only [greedyGo, List.mem_singleton] at he
      subst he
      exact hp cur rfl
  | cons c rest ih =>
    intro pending len hp e he
    by_cases hk : keepCond trimmed pending c = true
    · have hcmem : pcSet c.pitches ∈ trimmed := by
        have := hk
        simp only [keepCond, Bool.and_eq_true, decide_eq_true_eq] at this
        exact this.1
      cases pending with
      | none =>
        simp only [greedyGo, if_pos hk] at he
        exact ih _ _ (by intro cur hcur; cases hcur; exact hcmem) e he
      | some cur =>
        simp only [greedyGo, if_pos hk, List.mem_cons] at he
        rcases he with he | he
        · subst he; exact hp cur rfl
        · exact ih _ _ (by intro cur2 hcur2; cases hcur2; exact hcmem) e he
    · simp only [greedyGo, if_neg hk] at he
      exact ih _ _ hp e he

theorem greedyGo_skeleton (trimmed : List (List Nat)) :
    ∀ (events : List MEvent) (pending : Option MEvent) (len : ℚ),
      ∀ e ∈ greedyGo trimmed events pending len,
        (∃ cur, pending = some cur ∧ e.pitches = cur.pitches ∧ e.isRest = cur.isRest) ∨
          (∃ c ∈ events, e.pitches = c.pitches ∧ e.isRest = c.isRest) := by
  intro events
  induction events with
  | nil =>
    intro pending len e he
    cases pending with
    | none => simp [greedyGo] at he
    | some cur =>
      simp only [greedyGo, List.mem_singleton] at he
      subst he
      exact Or.inl ⟨cur, rfl, rfl, rfl⟩
  | cons c rest ih =>
    intro pending len e he
    by_cases hk : keepCond trimmed pending c = true
    · cases pending with
      | none =>
        simp only [greedyGo, if_pos hk] at he
        rcases ih _ _ e he with ⟨cur, hcur, hpit, hrest⟩ | ⟨c2, hc2, hpit, hrest⟩
        · cases hcur
          exact Or.inr ⟨c, List.mem_cons_self c rest, hpit, hrest⟩
        · exact Or.inr ⟨c2, List.mem_cons_of_mem c hc2, hpit, hrest⟩
      | some cur =>
        simp only [greedyGo, if_pos hk, List.mem_cons] at he
        rcases he with he | he
        · subst he; exact Or.inl ⟨cur, rfl, rfl, rfl⟩
        · rcases ih _ _ e he with ⟨cur2, hcur2, hpit, hrest⟩ | ⟨c2, hc2, hpit, hrest⟩
          · cases hcur2
            exact Or.inr ⟨c, List.mem_cons_self c rest, hpit, hrest⟩
          · exact Or.inr ⟨c2, List.mem_cons_of_mem c hc2, hpit, hrest⟩
    · simp only [greedyGo, if_neg hk] at he
      rcases ih _ _ e he with h | ⟨c2, hc2, hpit, hrest⟩
      · exact Or.inl h
      · exact Or.inr ⟨c2, List.mem_cons_of_mem c hc2, hpit, hrest⟩

theorem greedyGo_exists_of_trimmed (trimmed : List (List Nat)) :
    ∀ (events : List MEvent) (pending : Option MEvent) (len : ℚ) (p : List Nat),
      p ∈ trimmed →
      ((∃ c ∈ events, pcSet c.pitches = p) ∨
        (∃ cur, pending = some cur ∧ pcSet cur.pitches = p)) →
      ∃ e ∈ greedyGo trimmed events pending len, pcSet e.pitches = p := by
  intro events
  induction events with
  | nil =>
    intro pending len p hpt hsrc
    rcases hsrc with ⟨c, hc, _⟩ | ⟨cur, hcur, hpcs⟩
    · simp at hc
    · subst hcur
      exact ⟨_, List.mem_singleton_self _, hpcs⟩
  | cons c rest ih =>
    intro pending len p hpt hsrc
    by_cases hk : keepCond trimmed pending c = true
    · cases pending with
      | none =>
        simp only [greedyGo, if_pos hk]
        rcases hsrc with ⟨c2, hc2, hpcs⟩ | ⟨cur, hcur, _⟩
        · rcases List.mem_cons.mp hc2 with rfl | hc2
          · exact ih _ _ p hpt (Or.inr ⟨_, rfl, hpcs⟩)
          · exact ih _ _ p hpt (Or.inl ⟨c2, hc2, hpcs⟩)
        · exact absurd hcur (by simp)
      | some cur =>
        simp only [greedyGo, if_pos hk]
        rcases hsrc with ⟨c2, hc2, hpcs⟩ | ⟨cur2, hcur2, hpcs⟩
        · rcases List.mem_cons.mp hc2 with rfl | hc2
          · obtain ⟨e, he, hpe⟩ := ih (some c2) (0 + c2.quarterLength) p hpt
              (Or.inr ⟨c2, rfl, hpcs⟩)
            exact ⟨e, List.mem_cons_of_mem _ he, hpe⟩
          · obtain ⟨e, he, hpe⟩ := ih (some c) (0 + c.quarterLength) p hpt
              (Or.inl ⟨c2, hc2, hpcs⟩)
            exact ⟨e, List.mem_cons_of_mem _ he, hpe⟩
        · cases hcur2
          exact ⟨_, List.mem_cons_self _ _, hpcs⟩
    · have hgoal : ∃ e ∈ greedyGo trimmed rest pending (len + c.quarterLength),
          pcSet e.pitches = p := by
        rcases hsrc with ⟨c2, hc2, hpcs⟩ | ⟨cur2, hcur2, hpcs⟩
        · rcases List.mem_cons.mp hc2 with heq | hc2
          · -- the head itself failed the keep test even though its set is in
            -- `trimmed`: the pending chord must already carry the same set.
            subst heq
            cases pending with
            | none =>
              exfalso
              apply hk
              have h1 : pcSet c2.pitches ∈ trimmed := hpcs ▸ hpt
              simp [keepCond, h1]
            | some cur =>
              have hsame : pcSet cur.pitches = pcSet c2.pitches := by
                by_contra hne
                apply hk
                have h1 : pcSet c2.pitches ∈ trimmed := hpcs ▸ hpt
                simp [keepCond, h1, hne]
              exact ih _ _ p hpt (Or.inr ⟨cur, rfl, hsame.trans hpcs⟩)
          · exact ih _ _ p hpt (Or.inl ⟨c2, hc2, hpcs⟩)
        · exact ih _ _ p hpt (Or.inr ⟨cur2, hcur2, hpcs⟩)
      cases pending with
      | none => rw [greedyGo_cons_none, if_neg hk]; exact hgoal
      | some cur => rw [greedyGo_cons_some, if_neg hk]; exact hgoal

theorem greedyGo_sum_some (trimmed : List (List Nat)) :
    ∀ (events : List MEvent) (cur : MEvent) (len : ℚ),
      sumQL (greedyGo trimmed events (some cur) len) = len + sumQL events := by
  intro events
  induction events with
  | nil => intro cur len; simp [greedyGo, sumQL]
  | cons c rest ih =>
    intro cur len
    by_cases hk : keepCond trimmed (some cur) c = true
    · simp only [greedyGo, if_pos hk]
      simp only [sumQL, List.map_cons, List.sum_cons] at *
      rw [ih]
      ring
    · simp only [greedyGo, if_neg hk]
      rw [ih]
      simp only [sumQL, List.map_cons, List.sum_cons]
      ring

theorem greedyGo_sum_none (trimmed : List (List Nat)) :
    ∀ (rest : List MEvent) (c : MEvent) (len : ℚ),
      List.Chain' follows (c :: rest) →
      (∀ e ∈ c :: rest, 0 ≤ e.quarterLength) →
      0 ≤ len → len ≤ c.offset →
      greedyGo trimmed (c :: rest) none len = [] ∨
        sumQL (greedyGo trimmed (c :: rest) none len) =
          c.offset + sumQL (c :: rest) := by
  intro rest
  induction rest with
  | nil =>
    intro c len _ hq hl0 hlc
    by_cases hk : keepCond trimmed none c = true
    · right
      rw [greedyGo_cons_none, if_pos hk]
      have hlen1 : (if c.offset ≠ 0 then c.offset else len) = c.offset := by
        by_cases hco : c.offset = 0
        · have : len = 0 := le_antisymm (hco ▸ hlc) hl0
          simp [hco, this]
        · simp [hco]
      rw [hlen1]
      simp [greedyGo, sumQL]
    · left
      rw [greedyGo_cons_none, if_neg hk]
      rfl
  | cons c2 rest2 ih =>
    intro c len hch hq hl0 hlc
    by_cases hk : keepCond trimmed none c = true
    · right
      rw [greedyGo_cons_none, if_pos hk]
      have hlen1 : (if c.offset ≠ 0 then c.offset else len) = c.offset := by
        by_cases hco : c.offset = 0
        · have : len = 0 := le_antisymm (hco ▸ hlc) hl0
          simp [hco, this]
        · simp [hco]
      rw [hlen1, greedyGo_sum_some]
      simp only [sumQL, List.map_cons, List.sum_cons]
      ring
    · rw [greedyGo_cons_none, if_neg hk]
      have hf : follows c c2 := (List.chain'_cons.mp hch).1
      have hstep := ih c2 (len + c.quarterLength) (List.chain'_cons.mp hch).2
        (fun e he => hq e (List.mem_cons_of_mem c he))
        (add_nonneg hl0 (hq c (List.mem_cons_self c _)))
        (by rw [hf]; exact add_le_add_right hlc _)
      rcases hstep with h | h
      · exact Or.inl h
      · right
        rw [h, hf]
        simp only [sumQL, List.map_cons, List.sum_cons]
        ring

/-! ### Lemmas about the syncopation post-pass -/

theorem evenGo_sum :
    ∀ (l : List MEvent) (prev : MEvent),
      sumQL (evenGo prev l) = prev.quarterLength + sumQL l := by
  intro l
  induction l with
  | nil => intro prev; simp [evenGo, sumQL]
  | cons c rest ih =>
    intro prev
    simp only [evenGo]
    by_cases hc :
        roundHalfEven ((c.offset - (truncQ c.offset : ℚ)) * 1000) ∈ syncopationFractions
    · simp only [if_pos hc, sumQL, List.map_cons, List.sum_cons] at *
      rw [ih]
      ring
    · simp only [if_neg hc, sumQL, List.map_cons, List.sum_cons] at *
      rw [ih]

theorem evenChordLengths_sum (l : List MEvent) :
    sumQL (evenChordLengths l) = sumQL l := by
  cases l with
  | nil => rfl
  | cons c rest =>
    simp only [evenChordLengths]
    rw [evenGo_sum]
    simp [sumQL]

theorem evenGo_map {β : Type} (f : MEvent → β)
    (hf : ∀ (e : MEvent) (q o : ℚ),
      f { e with quarterLength := q, offset := o } = f e) :
    ∀ (l : List MEvent) (prev : MEvent),
      (evenGo prev l).map f = f prev :: l.map f := by
  intro l
  induction l with
  | nil => intro prev; simp [evenGo]
  | cons c rest ih =>
    intro prev
    simp only [evenGo]
    by_cases hc :
        roundHalfEven ((c.offset - (truncQ c.offset : ℚ)) * 1000) ∈ syncopationFractions
    · simp only [if_pos hc, List.map_cons, ih, hf]
    · simp only [if_neg hc, List.map_cons, ih]

theorem evenChordLengths_map {β : Type} (f : MEvent → β)
    (hf : ∀ (e : MEvent) (q o : ℚ),
      f { e with quarterLength := q, offset := o } = f e) (l : List MEvent) :
    (evenChordLengths l).map f = l.map f := by
  cases l with
  | nil => rfl
  | cons c rest => simp [evenChordLengths, evenGo_map f hf]

theorem skeleton_update (e : MEvent) (q o : ℚ) :
    skeleton { e with quarterLength := q, offset := o } = skeleton e := rfl

theorem evenChordLengths_length (l : List MEvent) :
    (evenChordLengths l).length = l.length := by
  have h := evenChordLengths_map skeleton skeleton_update l
  have := congrArg List.length h
  simpa using this

/-! ### Lemmas about the accumulated chord weights -/

theorem keys_cmwGo (w : Nat → Nat → MEvent → ℚ) (n : Nat) (p : List Nat) :
    ∀ (events : List MEvent) (i : Nat) (acc : List (List Nat × ℚ)),
      p ∈ (cmwGo w n i events acc).map Prod.fst ↔
        p ∈ acc.map Prod.fst ∨ ∃ e ∈ events, pcSet e.pitches = p := by
  intro events
  induction events with
  | nil => intro i acc; simp [cmwGo]
  | cons e rest ih =>
    intro i acc
    simp only [cmwGo, ih, keys_addWeight, List.mem_cons]
    constructor
    · rintro ((h | h) | h)
      · exact Or.inl h
      · exact Or.inr ⟨e, Or.inl rfl, h.symm⟩
      · obtain ⟨e2, he2, hpe⟩ := h
        exact Or.inr ⟨e2, Or.inr he2, hpe⟩
    · rintro (h | ⟨e2, heq | he2, hpe⟩)
      · exact Or.inl (Or.inl h)
      · subst heq; exact Or.inl (Or.inr hpe.symm)
      · exact Or.inr ⟨e2, he2, hpe⟩

theorem keys_chordWeights (w : Nat → Nat → MEvent → ℚ) (m : Measure)
    (p : List Nat) :
    p ∈ (chordWeightsOf w m).map Prod.fst ↔
      ∃ e ∈ notesOf m, pcSet e.pitches = p := by
  unfold chordWeightsOf computeMeasureChordWeights
  rw [keys_cmwGo]
  simp

theorem specEncGo_nonneg (w : Nat → Nat → MEvent → ℚ) (n : Nat) (p : List Nat)
    (src : List MEvent) (hw : ∀ i e, e ∈ src → 0 ≤ w i n e) :
    ∀ (events : List MEvent), (∀ e ∈ events, e ∈ src) →
      ∀ (i : Nat) (acc : ℚ), 0 ≤ acc → 0 ≤ specEncGo w n p i acc events := by
  intro events
  induction events with
  | nil => intro _ i acc hacc; exact hacc
  | cons e rest ih =>
    intro hsub i acc hacc
    simp only [specEncGo]
    apply ih (fun e2 he2 => hsub e2 (List.mem_cons_of_mem _ he2))
    by_cases h : pcSet e.pitches = p
    · simp only [if_pos h]
      exact add_nonneg hacc (hw i e (hsub e (List.mem_cons_self _ _)))
    · simpa [h] using hacc

theorem chordWeights_nonneg (w : Nat → Nat → MEvent → ℚ) (m : Measure)
    (hw : ∀ i e, e ∈ notesOf m → 0 ≤ w i (notesOf m).length e) (p : List Nat) :
    0 ≤ lookupD (chordWeightsOf w m) p := by
  unfold chordWeightsOf computeMeasureChordWeights
  rw [cmwGo_lookup]
  exact specEncGo_nonneg w (notesOf m).length p (notesOf m) hw (notesOf m)
    (fun e he => he) 0 (lookupD [] p) le_rfl

theorem chordWeights_nil (w : Nat → Nat → MEvent → ℚ) (m : Measure)
    (h : notesOf m = []) : chordWeightsOf w m = [] := by
  unfold chordWeightsOf computeMeasureChordWeights
  rw [h]
  rfl

theorem mem_map_fst_insSort (le : List Nat × ℚ → List Nat × ℚ → Bool)
    (l : List (List Nat × ℚ)) (p : List Nat) :
    p ∈ (insSort le l).map Prod.fst ↔ p ∈ l.map Prod.fst := by
  constructor
  · intro h
    obtain ⟨pr, hpr, hfst⟩ := List.mem_map.mp h
    exact List.mem_map.mpr ⟨pr, (mem_insSort le l pr).mp hpr, hfst⟩
  · intro h
    obtain ⟨pr, hpr, hfst⟩ := List.mem_map.mp h
    exact List.mem_map.mpr ⟨pr, (mem_insSort le l pr).mpr hpr, hfst⟩

theorem mem_maxNChords_keys (numChords : Nat) (w : Nat → Nat → MEvent → ℚ)
    (m : Measure) (p : List Nat) (hp : p ∈ maxNChordsOf numChords w m) :
    ∃ e ∈ notesOf m, pcSet e.pitches = p := by
  unfold maxNChordsOf at hp
  have h1 : p ∈ (sortedChordWeightsOf w m).map Prod.fst := List.mem_of_mem_take hp
  unfold sortedChordWeightsOf at h1
  rw [mem_map_fst_insSort] at h1
  exact (keys_chordWeights w m p).mp h1

/-! ### Lemmas about trimming -/

theorem mem_takeWhile_mono {α : Type} {p q : α → Bool}
    (h : ∀ a, p a = true → q a = true) :
    ∀ (l : List α) (x : α), x ∈ l.takeWhile p → x ∈ l.takeWhile q := by
  intro l
  induction l with
  | nil => intro x hx; simp [List.takeWhile] at hx
  | cons a as ih =>
    intro x hx
    by_cases hpa : p a = true
    · rw [List.takeWhile_cons_of_pos hpa] at hx
      rw [List.takeWhile_cons_of_pos (h a hpa)]
      rcases List.mem_cons.mp hx with heq | hx
      · exact heq ▸ List.mem_cons_self _ _
      · exact List.mem_cons_of_mem _ (ih x hx)
    · rw [List.takeWhile_cons_of_neg hpa] at hx
      simp at hx

theorem takeWhile_eq_self_of_forall {α : Type} {p : α → Bool}
    (l : List α) (h : ∀ a ∈ l, p a = true) : l.takeWhile p = l := by
  induction l with
  | nil => rfl
  | cons a as ih =>
    rw [List.takeWhile_cons_of_pos (h a (List.mem_cons_self _ _))]
    rw [ih (fun a2 ha2 => h a2 (List.mem_cons_of_mem _ ha2))]

theorem mem_of_takeWhile {α : Type} {p : α → Bool} :
    ∀ (l : List α) (x : α), x ∈ l.takeWhile p → x ∈ l := by
  intro l
  induction l with
  | nil => intro x hx; simp [List.takeWhile] at hx
  | cons a as ih =>
    intro x hx
    by_cases hpa : p a = true
    · rw [List.takeWhile_cons_of_pos hpa] at hx
      rcases List.mem_cons.mp hx with heq | hx
      · exact heq ▸ List.mem_cons_self _ _
      · exact List.mem_cons_of_mem _ (ih x hx)
    · rw [List.takeWhile_cons_of_neg hpa] at hx
      simp at hx

theorem mem_trimmed_sub_maxN (numChords : Nat) (w : Nat → Nat → MEvent → ℚ)
    (trimBelow : ℚ) (m : Measure) (p : List Nat)
    (hp : p ∈ trimmedMaxChordsOf numChords w trimBelow m) :
    p ∈ maxNChordsOf numChords w m := by
  unfold trimmedMaxChordsOf at hp
  cases hmax : maxNChordsOf numChords w m with
  | nil => rw [hmax] at hp; simp at hp
  | cons p0 tl =>
    rw [hmax] at hp
    have hp2 : p ∈ (p0 :: tl).takeWhile
        (fun q => decide (lookupD (chordWeightsOf w m) p0 * trimBelow ≤
          lookupD (chordWeightsOf w m) q)) := hp
    exact mem_of_takeWhile _ _ hp2

/-- With non-negative weights and `trimBelow ≤ 1`, the head of
`maxNChords` always survives trimming. -/
theorem head_mem_trimmed (numChords : Nat) (w : Nat → Nat → MEvent → ℚ)
    (trimBelow : ℚ) (m : Measure) (p0 : List Nat) (tl : List (List Nat))
    (hmax : maxNChordsOf numChords w m = p0 :: tl)
    (h0 : 0 ≤ lookupD (chordWeightsOf w m) p0) (ht : trimBelow ≤ 1) :
    p0 ∈ trimmedMaxChordsOf numChords w trimBelow m := by
  unfold trimmedMaxChordsOf
  rw [hmax]
  show p0 ∈ (p0 :: tl).takeWhile
    (fun p => decide (lookupD (chordWeightsOf w m) p0 * trimBelow ≤
      lookupD (chordWeightsOf w m) p))
  have hle := mul_le_of_le_one_right h0 ht
  simp [List.takeWhile_cons, hle]

/-! ### Characterising the pitch-class sets of the reduced measure -/

theorem reduce_nondegen (numChords : Nat) (w : Nat → Nat → MEvent → ℚ)
    (trimBelow : ℚ) (m : Measure) (p0 : List Nat) (tl : List (List Nat))
    (hmax : maxNChordsOf numChords w m = p0 :: tl) :
    reduceMeasureToNChords numChords w trimBelow m =
      evenChordLengths
        (greedyGo (trimmedMaxChordsOf numChords w trimBelow m) (notesOf m) none 0) := by
  simp only [reduceMeasureToNChords, hmax]

theorem reduce_degen (numChords : Nat) (w : Nat → Nat → MEvent → ℚ)
    (trimBelow : ℚ) (m : Measure) (hmax : maxNChordsOf numChords w m = []) :
    reduceMeasureToNChords numChords w trimBelow m = [degenerateRest m.duration] := by
  simp only [reduceMeasureToNChords, hmax]

theorem mem_even_skeleton (g : List MEvent) (e : MEvent)
    (he : e ∈ evenChordLengths g) :
    ∃ e2 ∈ g, e2.pitches = e.pitches ∧ e2.isRest = e.isRest := by
  have hmap := evenChordLengths_map skeleton skeleton_update g
  have h1 : skeleton e ∈ (evenChordLengths g).map skeleton :=
    List.mem_map_of_mem skeleton he
  rw [hmap] at h1
  obtain ⟨e2, he2, hsk⟩ := List.mem_map.mp h1
  refine ⟨e2, he2, ?_, ?_⟩
  · exact congrArg Prod.fst hsk
  · exact congrArg Prod.snd hsk

theorem mem_even_skeleton_rev (g : List MEvent) (e : MEvent)
    (he : e ∈ g) :
    ∃ e2 ∈ evenChordLengths g, e2.pitches = e.pitches ∧ e2.isRest = e.isRest := by
  have hmap := evenChordLengths_map skeleton skeleton_update g
  have h1 : skeleton e ∈ g.map skeleton := List.mem_map_of_mem skeleton he
  rw [← hmap] at h1
  obtain ⟨e2, he2, hsk⟩ := List.mem_map.mp h1
  refine ⟨e2, he2, ?_, ?_⟩
  · exact congrArg Prod.fst hsk
  · exact congrArg Prod.snd hsk

/-- Soundness: every pitch-class set realised in the reduced measure
survived trimming and occurs among the measure's notes. -/
theorem outputPcs_sound (numChords : Nat) (w : Nat → Nat → MEvent → ℚ)
    (trimBelow : ℚ) (m : Measure) (p : List Nat)
    (hp : p ∈ outputPcsOf numChords w trimBelow m) :
    p ∈ trimmedMaxChordsOf numChords w trimBelow m ∧
      ∃ e ∈ notesOf m, pcSet e.pitches = p := by
  unfold outputPcsOf at hp
  cases hmax : maxNChordsOf numChords w m with
  | nil =>
    rw [reduce_degen numChords w trimBelow m hmax] at hp
    simp [degenerateRest] at hp
  | cons p0 tl =>
    rw [reduce_nondegen numChords w trimBelow m p0 tl hmax] at hp
    obtain ⟨e, hemem, hpe⟩ := List.mem_map.mp hp
    have he2 : e ∈ evenChordLengths
        (greedyGo (trimmedMaxChordsOf numChords w trimBelow m) (notesOf m) none 0) :=
      (List.mem_filter.mp hemem).1
    obtain ⟨e2, he2g, hpit, _⟩ := mem_even_skeleton _ e he2
    have hpcs2 : pcSet e2.pitches = p := by rw [hpit, hpe]
    constructor
    · have := greedyGo_pcs_mem (trimmedMaxChordsOf numChords w trimBelow m)
        (notesOf m) none 0 (by intro cur h; cases h) e2 he2g
      rw [hpcs2] at this
      exact this
    · rcases greedyGo_skeleton (trimmedMaxChordsOf numChords w trimBelow m)
        (notesOf m) none 0 e2 he2g with ⟨cur, hcur, _⟩ | ⟨c, hc, hcp, _⟩
      · cases hcur
      · exact ⟨c, hc, by rw [← hcp, hpcs2]⟩

/-- Completeness: every trimmed pitch-class set that occurs among the
measure's notes is realised in the reduced measure. -/
theorem outputPcs_complete (numChords : Nat) (w : Nat → Nat → MEvent → ℚ)
    (trimBelow : ℚ) (m : Measure) (p : List Nat)
    (hpt : p ∈ trimmedMaxChordsOf numChords w trimBelow m)
    (hsrc : ∃ e ∈ notesOf m, pcSet e.pitches = p) :
    p ∈ outputPcsOf numChords w trimBelow m := by
  have hmaxmem := mem_trimmed_sub_maxN numChords w trimBelow m p hpt
  cases hmax : maxNChordsOf numChords w m with
  | nil => rw [hmax] at hmaxmem; simp at hmaxmem
  | cons p0 tl =>
    obtain ⟨e, heg, hpe⟩ := greedyGo_exists_of_trimmed
      (trimmedMaxChordsOf numChords w trimBelow m) (notesOf m) none 0 p hpt
      (Or.inl hsrc)
    have herest : e.isRest = false := by
      rcases greedyGo_skeleton (trimmedMaxChordsOf numChords w trimBelow m)
          (notesOf m) none 0 e heg with ⟨cur, hcur, _⟩ | ⟨c, hc, _, hrest⟩
      · cases hcur
      · rw [hrest]
        have := (List.mem_filter.mp hc).2
        simpa using this
    obtain ⟨e2, he2, hpit2, hrest2⟩ := mem_even_skeleton_rev _ e heg
    unfold outputPcsOf
    rw [reduce_nondegen numChords w trimBelow m p0 tl hmax]
    apply List.mem_map.mpr
    refine ⟨e2, List.mem_filter.mpr ⟨he2, ?_⟩, ?_⟩
    · rw [hrest2, herest]; rfl
    · rw [hpit2, hpe]

theorem maxN_nil_of_notes_nil (numChords : Nat) (w : Nat → Nat → MEvent → ℚ)
    (m : Measure) (h : notesOf m = []) : maxNChordsOf numChords w m = [] := by
  unfold maxNChordsOf sortedChordWeightsOf
  rw [chordWeights_nil w m h]
  simp [insSort]

theorem length_takeWhile_le {α : Type} (p : α → Bool) :
    ∀ l : List α, (l.takeWhile p).length ≤ l.length := by
  intro l
  induction l with
  | nil => simp [List.takeWhile]
  | cons a as ih =>
    by_cases hpa : p a = true
    · rw [List.takeWhile_cons_of_pos hpa]
      simpa using ih
    · rw [List.takeWhile_cons_of_neg hpa]
      simp

theorem trimmed_length_le (numChords : Nat) (w : Nat → Nat → MEvent → ℚ)
    (trimBelow : ℚ) (m : Measure) :
    (trimmedMaxChordsOf numChords w trimBelow m).length ≤ numChords := by
  unfold trimmedMaxChordsOf
  cases hmax : maxNChordsOf numChords w m with
  | nil => simp
  | cons p0 tl =>
    have h1 : ((p0 :: tl).takeWhile
        (fun p => decide (lookupD (chordWeightsOf w m) p0 * trimBelow ≤
          lookupD (chordWeightsOf w m) p))).length ≤ (p0 :: tl).length :=
      length_takeWhile_le _ _
    have h2 : (p0 :: tl).length ≤ numChords := by
      rw [← hmax]
      unfold maxNChordsOf
      rw [List.length_take, List.length_map]
      exact le_trans (min_le_left _ _) (min_le_left _ _)
    exact le_trans h1 h2

theorem trimmed_mono (numChords : Nat) (w : Nat → Nat → MEvent → ℚ)
    (m : Measure) (t1 t2 : ℚ)
    (hw : ∀ i e, e ∈ notesOf m → 0 ≤ w i (notesOf m).length e)
    (h12 : t1 ≤ t2) (p : List Nat)
    (hp : p ∈ trimmedMaxChordsOf numChords w t2 m) :
    p ∈ trimmedMaxChordsOf numChords w t1 m := by
  unfold trimmedMaxChordsOf at hp ⊢
  cases hmax : maxNChordsOf numChords w m with
  | nil => rw [hmax] at hp; simp at hp
  | cons p0 tl =>
    rw [hmax] at hp
    have h0 : 0 ≤ lookupD (chordWeightsOf w m) p0 := chordWeights_nonneg w m hw p0
    refine mem_takeWhile_mono ?_ (p0 :: tl) p hp
    intro a ha
    rw [decide_eq_true_eq] at ha ⊢
    calc lookupD (chordWeightsOf w m) p0 * t1
        ≤ lookupD (chordWeightsOf w m) p0 * t2 :=
          mul_le_mul_of_nonneg_left h12 h0
      _ ≤ lookupD (chordWeightsOf w m) a := ha

theorem trimmed_zero (numChords : Nat) (w : Nat → Nat → MEvent → ℚ)
    (m : Measure)
    (hw : ∀ i e, e ∈ notesOf m → 0 ≤ w i (notesOf m).length e) :
    trimmedMaxChordsOf numChords w 0 m = maxNChordsOf numChords w m := by
  unfold trimmedMaxChordsOf
  cases hmax : maxNChordsOf numChords w m with
  | nil => rfl
  | cons p0 tl =>
    apply takeWhile_eq_self_of_forall
    intro a _
    rw [decide_eq_true_eq, mul_zero]
    exact chordWeights_nonneg w m hw a

/-- C3: for every input measure, the reduced measure has at most
`numChords` distinct pitch-class sets and at least one event; when the
measure has no notes at all, its whole content is replaced by a single
rest spanning the measure's full duration.  (The weight function is
non-negative, as the spec requires of every strategy, and `trimBelow` does
not exceed `1`.) -/
theorem reduceMeasure_count_bound (numChords : Nat)
    (w : Nat → Nat → MEvent → ℚ) (trimBelow : ℚ) (m : Measure)
    (hw : ∀ i e, e ∈ notesOf m → 0 ≤ w i (notesOf m).length e)
    (ht : trimBelow ≤ 1) :
    1 ≤ (reduceMeasureToNChords numChords w trimBelow m).length ∧
    (outputPcsOf numChords w trimBelow m).toFinset.card ≤ numChords ∧
    (notesOf m = [] →
      reduceMeasureToNChords numChords w trimBelow m = [degenerateRest m.duration]) := by
  refine ⟨?_, ?_, ?_⟩
  · cases hmax : maxNChordsOf numChords w m with
    | nil => rw [reduce_degen numChords w trimBelow m hmax]; simp
    | cons p0 tl =>
      have h0 : 0 ≤ lookupD (chordWeightsOf w m) p0 := chordWeights_nonneg w m hw p0
      have hp0t : p0 ∈ trimmedMaxChordsOf numChords w trimBelow m :=
        head_mem_trimmed numChords w trimBelow m p0 tl hmax h0 ht
      have hsrc : ∃ e ∈ notesOf m, pcSet e.pitches = p0 :=
        mem_maxNChords_keys numChords w m p0 (hmax ▸ List.mem_cons_self _ _)
      have hout := outputPcs_complete numChords w trimBelow m p0 hp0t hsrc
      unfold outputPcsOf at hout
      obtain ⟨e, hemem, _⟩ := List.mem_map.mp hout
      have := (List.mem_filter.mp hemem).1
      exact List.length_pos_of_mem this
  · cases hmax : maxNChordsOf numChords w m with
    | nil =>
      have hout : outputPcsOf numChords w trimBelow m = [] := by
        unfold outputPcsOf
        rw [reduce_degen numChords w trimBelow m hmax]
        rfl
      rw [hout]
      simp
    | cons p0 tl =>
      have hsub : (outputPcsOf numChords w trimBelow m).toFinset ⊆
          (trimmedMaxChordsOf numChords w trimBelow m).toFinset := by
        intro p hp
        rw [List.mem_toFinset] at hp ⊢
        exact (outputPcs_sound numChords w trimBelow m p hp).1
      calc (outputPcsOf numChords w trimBelow m).toFinset.card
          ≤ (trimmedMaxChordsOf numChords w trimBelow m).toFinset.card :=
            Finset.card_le_card hsub
        _ ≤ (trimmedMaxChordsOf numChords w trimBelow m).length :=
            List.toFinset_card_le _
        _ ≤ numChords := trimmed_length_le numChords w trimBelow m
  · intro hnil
    exact reduce_degen numChords w trimBelow m
      (maxN_nil_of_notes_nil numChords w m hnil)

/-- C4: with any non-negative weight strategy and `trimBelow ≤ 1`, if the
measure's notes tile a contiguous span (each event starts where the
previous stops) and the measure's duration is the first offset plus the
total note length, then the reduced measure's event durations sum exactly
to the measure's duration: kept events absorb discarded ones, the leading
gap is absorbed by the first kept event, and the syncopation post-pass
only moves length between adjacent events. -/
theorem reduceMeasure_duration_conserved (numChords : Nat)
    (w : Nat → Nat → MEvent → ℚ) (trimBelow : ℚ) (m : Measure)
    (hw : ∀ i e, e ∈ notesOf m → 0 ≤ w i (notesOf m).length e)
    (ht : trimBelow ≤ 1)
    (hchain : List.Chain' follows (notesOf m))
    (hq : ∀ e ∈ notesOf m, 0 ≤ e.quarterLength)
    (hdur : ∀ c rest, notesOf m = c :: rest →
      0 ≤ c.offset ∧ m.duration = c.offset + sumQL (notesOf m)) :
    sumQL (reduceMeasureToNChords numChords w trimBelow m) = m.duration := by
  cases hmax : maxNChordsOf numChords w m with
  | nil =>
    rw [reduce_degen numChords w trimBelow m hmax]
    simp [sumQL, degenerateRest]
  | cons p0 tl =>
    rw [reduce_nondegen numChords w trimBelow m p0 tl hmax, evenChordLengths_sum]
    have h0 : 0 ≤ lookupD (chordWeightsOf w m) p0 := chordWeights_nonneg w m hw p0
    have hp0t : p0 ∈ trimmedMaxChordsOf numChords w trimBelow m :=
      head_mem_trimmed numChords w trimBelow m p0 tl hmax h0 ht
    have hsrc : ∃ e ∈ notesOf m, pcSet e.pitches = p0 :=
      mem_maxNChords_keys numChords w m p0 (hmax ▸ List.mem_cons_self _ _)
    cases hnotes : notesOf m with
    | nil =>
      obtain ⟨e, he, _⟩ := hsrc
      rw [hnotes] at he
      simp at he
    | cons c rest =>
      rw [hnotes] at hchain hq hsrc
      obtain ⟨hoff, hsum⟩ := hdur c rest hnotes
      have hne : greedyGo (trimmedMaxChordsOf numChords w trimBelow m)
          (c :: rest) none 0 ≠ [] := by
        obtain ⟨e, he, _⟩ := greedyGo_exists_of_trimmed
          (trimmedMaxChordsOf numChords w trimBelow m) (c :: rest) none 0 p0
          hp0t (Or.inl hsrc)
        exact List.ne_nil_of_mem he
      rcases greedyGo_sum_none (trimmedMaxChordsOf numChords w trimBelow m)
          rest c 0 hchain hq le_rfl hoff with h | h
      · exact absurd h hne
      · rw [h, hsum, hnotes]

/-- C5: for a fixed measure, weight function and `numChords`, the set of
pitch-class sets kept by the reduction is antitone in `trimBelow` on
`[0, 1]`, so raising `trimBelow` never increases the number of distinct
kept sets; and `trimBelow = 0` keeps every one of the top
`min(numChords, distinctCount)` sets. -/
theorem reduceMeasure_trim_antitone (numChords : Nat)
    (w : Nat → Nat → MEvent → ℚ) (m : Measure) (t1 t2 : ℚ)
    (hw : ∀ i e, e ∈ notesOf m → 0 ≤ w i (notesOf m).length e)
    (_h1 : 0 ≤ t1) (h12 : t1 ≤ t2) (_h2 : t2 ≤ 1) :
    (∀ p, p ∈ outputPcsOf numChords w t2 m → p ∈ outputPcsOf numChords w t1 m) ∧
    (outputPcsOf numChords w t2 m).toFinset.card ≤
      (outputPcsOf numChords w t1 m).toFinset.card ∧
    (∀ p ∈ maxNChordsOf numChords w m, p ∈ outputPcsOf numChords w 0 m) := by
  have hmono : ∀ p, p ∈ outputPcsOf numChords w t2 m →
      p ∈ outputPcsOf numChords w t1 m := by
    intro p hp
    obtain ⟨hpt, hsrc⟩ := outputPcs_sound numChords w t2 m p hp
    exact outputPcs_complete numChords w t1 m p
      (trimmed_mono numChords w m t1 t2 hw h12 p hpt) hsrc
  refine ⟨hmono, ?_, ?_⟩
  · apply Finset.card_le_card
    intro p hp
    rw [List.mem_toFinset] at hp ⊢
    exact hmono p hp
  · intro p hp
    exact outputPcs_complete numChords w 0 m p
      (trimmed_zero numChords w m hw ▸ hp)
      (mem_maxNChords_keys numChords w m p hp)

/-- C8: the reduction is a deterministic function of its input (in this
pure embedding, running it twice on the same measure gives the same
result), and the floating-point weights — modelled as exact rationals —
are accumulated per pitch-class set by a left fold in event encounter
order, never in a reassociated order: the dictionary produced by
`computeMeasureChordWeights` assigns every set exactly the
encounter-ordered sum. -/
theorem chordWeights_encounter_order :
    (∀ (numChords : Nat) (w : Nat → Nat → MEvent → ℚ) (trimBelow : ℚ)
        (m : Measure),
      reduceMeasureToNChords numChords w trimBelow m =
        reduceMeasureToNChords numChords w trimBelow m) ∧
    (∀ (w : Nat → Nat → MEvent → ℚ) (events : List MEvent) (p : List Nat),
      lookupD (computeMeasureChordWeights w events) p =
        specEncounterOrderWeight w events.length p events) := by
  refine ⟨fun _ _ _ _ => rfl, ?_⟩
  intro w events p
  unfold computeMeasureChordWeights specEncounterOrderWeight
  rw [cmwGo_lookup]
  rfl

/-- The doctest of `reduceMeasureToNChords` (lines 453–470, with the
consonance-weighted strategy): the whole measure reduces to the single
chord C4 E4 G4 C5 spanning all four beats. -/
theorem reduceMeasure_doctest :
    reduceMeasureToNChords 3 qlbsmpConsonance (3 / 10) measureACE =
      [{ chordACE with offset := 0, quarterLength := 4 }] := by
  norm_num [reduceMeasureToNChords, maxNChordsOf, trimmedMaxChordsOf, chordWeightsOf,
    sortedChordWeightsOf, computeMeasureChordWeights, cmwGo, addWeight, notesOf,
    measureACE, chordACE, chordDiss, chordACE2, pcSet, sortNat, dedupAdj, insSort,
    insertLe, weightDescLe, lookupD, qlbsmpConsonance,
    quarterLengthBeatStrengthMeasurePosition, quarterLengthBeatStrength,
    greedyGo, keepCond, evenChordLengths, evenGo, truncQ, roundHalfEven,
    syncopationFractions, List.takeWhile]

theorem quarterLengthOnly_nonneg_ACE :
    ∀ i e, e ∈ notesOf measureACE →
      0 ≤ quarterLengthOnly i (notesOf measureACE).length e := by
  intro i e he
  simp [notesOf, measureACE, chordACE, chordDiss, chordACE2] at he
  rcases he with rfl | rfl | rfl <;> norm_num [quarterLengthOnly]

theorem qlbsmp_nonneg_ACE :
    ∀ i e, e ∈ notesOf measureACE →
      0 ≤ qlbsmpConsonance i (notesOf measureACE).length e := by
  intro i e he
  simp [notesOf, measureACE, chordACE, chordDiss, chordACE2] at he
  rcases he with rfl | rfl | rfl <;>
    · unfold qlbsmpConsonance quarterLengthBeatStrengthMeasurePosition
        quarterLengthBeatStrength
      split_ifs <;> norm_num

/-- Witness for C3 at a concrete input. -/
theorem reduceMeasure_count_bound_witness :
    (∀ i e, e ∈ notesOf measureACE →
      0 ≤ quarterLengthOnly i (notesOf measureACE).length e) ∧
    ((1 : ℚ) / 4 ≤ 1) ∧
    (1 ≤ (reduceMeasureToNChords 3 quarterLengthOnly (1 / 4) measureACE).length ∧
      (outputPcsOf 3 quarterLengthOnly (1 / 4) measureACE).toFinset.card ≤ 3 ∧
      (notesOf measureACE = [] →
        reduceMeasureToNChords 3 quarterLengthOnly (1 / 4) measureACE =
          [degenerateRest measureACE.duration])) :=
  ⟨quarterLengthOnly_nonneg_ACE, by norm_num,
    reduceMeasure_count_bound 3 quarterLengthOnly (1 / 4) measureACE
      quarterLengthOnly_nonneg_ACE (by norm_num)⟩

theorem measureACE_chain : List.Chain' follows (notesOf measureACE) := by
  simp only [notesOf, measureACE, List.filter, chordACE, chordDiss, chordACE2]
  refine List.chain'_cons.mpr ⟨?_, List.chain'_cons.mpr ⟨?_, ?_⟩⟩ <;>
    norm_num [follows, chordACE, chordDiss, chordACE2]

theorem measureACE_qL_nonneg : ∀ e ∈ notesOf measureACE, 0 ≤ e.quarterLength := by
  intro e he
  simp [notesOf, measureACE, chordACE, chordDiss, chordACE2] at he
  rcases he with rfl | rfl | rfl <;> norm_num

theorem measureACE_duration_fact : ∀ c rest, notesOf measureACE = c :: rest →
    0 ≤ c.offset ∧ measureACE.duration = c.offset + sumQL (notesOf measureACE) := by
  intro c rest h
  simp only [notesOf, measureACE, List.filter, chordACE, chordDiss, chordACE2] at h
  injection h with h1 _
  subst h1
  constructor
  · norm_num
  · simp only [notesOf, measureACE, List.filter, chordACE, chordDiss, chordACE2, sumQL]
    norm_num

/-- Witness for C4 at a concrete input (the doctest measure with the
consonance-weighted strategy). -/
theorem reduceMeasure_duration_conserved_witness :
    (∀ i e, e ∈ notesOf measureACE →
      0 ≤ qlbsmpConsonance i (notesOf measureACE).length e) ∧
    ((1 : ℚ) / 4 ≤ 1) ∧
    List.Chain' follows (notesOf measureACE) ∧
    (∀ e ∈ notesOf measureACE, 0 ≤ e.quarterLength) ∧
    (∀ c rest, notesOf measureACE = c :: rest →
      0 ≤ c.offset ∧ measureACE.duration = c.offset + sumQL (notesOf measureACE)) ∧
    sumQL (reduceMeasureToNChords 3 qlbsmpConsonance (1 / 4) measureACE) =
      measureACE.duration :=
  ⟨qlbsmp_nonneg_ACE, by norm_num, measureACE_chain, measureACE_qL_nonneg,
    measureACE_duration_fact,
    reduceMeasure_duration_conserved 3 qlbsmpConsonance (1 / 4) measureACE
      qlbsmp_nonneg_ACE (by norm_num) measureACE_chain measureACE_qL_nonneg
      measureACE_duration_fact⟩

/-! ### Stability of the weight sort (claim C6)

`sorted(chordWeights, key=chordWeights.get, reverse=True)` sorts only by
weight; Python's sort is stable, so entries with equal weights keep the
weight dictionary's iteration order (insertion order in this embedding)
— the pitch-class sets' own ordering plays no role. -/

theorem pairwise_insertLe_weight (x : List Nat × ℚ) :
    ∀ l : List (List Nat × ℚ),
      List.Pairwise (fun a b : List Nat × ℚ => b.2 ≤ a.2) l →
      List.Pairwise (fun a b : List Nat × ℚ => b.2 ≤ a.2)
        (insertLe weightDescLe x l) := by
  intro l
  induction l with
  | nil => intro _; simp [insertLe]
  | cons y ys ih =>
    intro h
    rw [List.pairwise_cons] at h
    obtain ⟨hy, hys⟩ := h
    by_cases hle : weightDescLe x y = true
    · have hyx : y.2 ≤ x.2 := by simpa [weightDescLe] using hle
      simp only [insertLe, if_pos hle]
      rw [List.pairwise_cons]
      refine ⟨?_, List.pairwise_cons.mpr ⟨hy, hys⟩⟩
      intro z hz
      rcases List.mem_cons.mp hz with rfl | hz
      · exact hyx
      · exact le_trans (hy z hz) hyx
    · have hxy : x.2 < y.2 := by
        have : ¬ (y.2 ≤ x.2) := by simpa [weightDescLe] using hle
        exact lt_of_not_le this
      simp only [insertLe, if_neg hle]
      rw [List.pairwise_cons]
      refine ⟨?_, ih hys⟩
      intro z hz
      rcases (mem_insertLe _ x z ys).mp hz with rfl | hz
      · exact le_of_lt hxy
      · exact hy z hz

theorem pairwise_insSort_weight (l : List (List Nat × ℚ)) :
    List.Pairwise (fun a b : List Nat × ℚ => b.2 ≤ a.2)
      (insSort weightDescLe l) := by
  induction l with
  | nil => simp [insSort]
  | cons x xs ih => exact pairwise_insertLe_weight x _ ih

theorem filter_insertLe_weight (x : List Nat × ℚ) (v : ℚ) :
    ∀ l : List (List Nat × ℚ),
      (insertLe weightDescLe x l).filter (fun a => decide (a.2 = v)) =
        if x.2 = v then x :: l.filter (fun a => decide (a.2 = v))
        else l.filter (fun a => decide (a.2 = v)) := by
  intro l
  induction l with
  | nil =>
    by_cases hx : x.2 = v <;> simp [insertLe, List.filter, hx]
  | cons y ys ih =>
    by_cases hle : weightDescLe x y = true
    · simp only [insertLe, if_pos hle, List.filter_cons]
      by_cases hx : x.2 = v <;> simp [hx]
    · have hxy : x.2 < y.2 := by
        have : ¬ (y.2 ≤ x.2) := by simpa [weightDescLe] using hle
        exact lt_of_not_le this
      simp only [insertLe, if_neg hle, List.filter_cons]
      by_cases hx : x.2 = v
      · have hyv : ¬ (y.2 = v) := by rw [← hx]; exact ne_of_gt hxy
        simp [hx, hyv, ih]
      · by_cases hyv : y.2 = v <;> simp [hx, hyv, ih]

theorem filter_insSort_weight (v : ℚ) (l : List (List Nat × ℚ)) :
    (insSort weightDescLe l).filter (fun a => decide (a.2 = v)) =
      l.filter (fun a => decide (a.2 = v)) := by
  induction l with
  | nil => simp [insSort]
  | cons x xs ih =>
    show (insertLe weightDescLe x (insSort weightDescLe xs)).filter _ = _
    rw [filter_insertLe_weight, List.filter_cons]
    by_cases hx : x.2 = v <;> simp [hx, ih]

/-- Witness for C5 at a concrete input. -/
theorem reduceMeasure_trim_antitone_witness :
    (∀ i e, e ∈ notesOf measureACE →
      0 ≤ quarterLengthOnly i (notesOf measureACE).length e) ∧
    ((0 : ℚ) ≤ 1 / 4) ∧ ((1 : ℚ) / 4 ≤ 1 / 2) ∧ ((1 : ℚ) / 2 ≤ 1) ∧
    ((∀ p, p ∈ outputPcsOf 3 quarterLengthOnly (1 / 2) measureACE →
        p ∈ outputPcsOf 3 quarterLengthOnly (1 / 4) measureACE) ∧
      (outputPcsOf 3 quarterLengthOnly (1 / 2) measureACE).toFinset.card ≤
        (outputPcsOf 3 quarterLengthOnly (1 / 4) measureACE).toFinset.card ∧
      (∀ p ∈ maxNChordsOf 3 quarterLengthOnly measureACE,
        p ∈ outputPcsOf 3 quarterLengthOnly 0 measureACE)) :=
  ⟨quarterLengthOnly_nonneg_ACE, by norm_num, by norm_num, by norm_num,
    reduceMeasure_trim_antitone 3 quarterLengthOnly measureACE (1 / 4) (1 / 2)
      quarterLengthOnly_nonneg_ACE (by norm_num) (by norm_num) (by norm_num)⟩

/-- C6 counterexample: in `measureEqW` the sets `{2}` and `{0}` accumulate
exactly equal weights, yet the code ranks `{2}` (first encountered) ahead
of `{0}`, whereas the natural sort order would rank `{0}` first; with
`numChords = 1` the reduction therefore keeps `{2}`, not `{0}` — the tie
is not decided by the pitch-class sets' natural sort order. -/
theorem chordWeights_tie_counterexample :
    lookupD (chordWeightsOf quarterLengthOnly measureEqW) [2] =
      lookupD (chordWeightsOf quarterLengthOnly measureEqW) [0] ∧
    sortedChordWeightsOf quarterLengthOnly measureEqW = [([2], 1), ([0], 1)] ∧
    specNaturalOrderSort (chordWeightsOf quarterLengthOnly measureEqW) =
      [([0], 1), ([2], 1)] ∧
    sortedChordWeightsOf quarterLengthOnly measureEqW ≠
      specNaturalOrderSort (chordWeightsOf quarterLengthOnly measureEqW) ∧
    outputPcsOf 1 quarterLengthOnly 0 measureEqW = [[2]] := by
  norm_num [outputPcsOf, reduceMeasureToNChords, maxNChordsOf, trimmedMaxChordsOf,
    chordWeightsOf, sortedChordWeightsOf, specNaturalOrderSort, computeMeasureChordWeights,
    cmwGo, addWeight, notesOf, measureEqW, chordRe, chordDo, pcSet, sortNat, dedupAdj,
    insSort, insertLe, weightDescLe, lexLe, lookupD, quarterLengthOnly, greedyGo,
    keepCond, evenChordLengths, evenGo, truncQ, roundHalfEven, syncopationFractions,
    List.takeWhile, degenerateRest]

/-- C6 amended: the descending weight ordering used by
`reduceMeasureToNChords` is sorted by accumulated weight, and entries with
exactly equal weights keep the weight dictionary's insertion order — the
order in which their pitch-class sets were first encountered in the
measure — making the selection deterministic; natural sort order of the
sets is not consulted. -/
theorem chordWeights_tie_order (w : Nat → Nat → MEvent → ℚ) (m : Measure) :
    List.Pairwise (fun a b : List Nat × ℚ => b.2 ≤ a.2)
      (sortedChordWeightsOf w m) ∧
    ∀ v : ℚ, (sortedChordWeightsOf w m).filter (fun a => decide (a.2 = v)) =
      (chordWeightsOf w m).filter (fun a => decide (a.2 = v)) := by
  constructor
  · exact pairwise_insSort_weight (chordWeightsOf w m)
  · intro v
    exact filter_insSort_weight v (chordWeightsOf w m)

theorem applyTiesGo_get :
    ∀ (rest : List NElem) (one : NElem) (i : Nat) (a b : NElem),
      (one :: rest)[i]? = some a → (one :: rest)[i + 1]? = some b →
      (applyTiesGo one rest)[i]? =
        some (if tiePairCond a b then setTieStart a else a) := by
  intro rest
  induction rest with
  | nil =>
    intro one i a b _ hb
    cases i <;> simp at hb
  | cons two rs ih =>
    intro one i a b ha hb
    cases i with
    | zero =>
      simp only [List.getElem?_cons_zero, Option.some.injEq] at ha
      simp only [List.getElem?_cons_succ, List.getElem?_cons_zero,
        Option.some.injEq] at hb
      subst ha
      subst hb
      simp [applyTiesGo]
    | succ j =>
      rw [List.getElem?_cons_succ] at ha
      rw [List.getElem?_cons_succ] at hb
      simp only [applyTiesGo, List.getElem?_cons_succ]
      exact ih two j a b ha hb

theorem hasTieStart_setTieStart (a : NElem) :
    hasTieStart (setTieStart a) = true := by
  cases a <;> rfl

/-- C9 amended: after `_applyTies`, for every pair of adjacent events of
the same kind with identical pitch content — two notes of equal pitch, or
two chords with equal ordered pitch content — the earlier event of the
pair carries a tie-start marker.  (Mixed note/chord pairs are not
marked.) -/
theorem applyTies_marks_pairs (l : List NElem) (i : Nat) (a b : NElem)
    (ha : l[i]? = some a) (hb : l[i + 1]? = some b)
    (hcond : tiePairCond a b = true) :
    (applyTies l)[i]? = some (setTieStart a) ∧
      ∃ a2, (applyTies l)[i]? = some a2 ∧ hasTieStart a2 = true := by
  cases l with
  | nil => simp at ha
  | cons one rest =>
    have h := applyTiesGo_get rest one i a b ha hb
    rw [if_pos hcond] at h
    exact ⟨h, setTieStart a, h, hasTieStart_setTieStart a⟩

/-- Witness for the amended C9 at a concrete input. -/
theorem applyTies_marks_pairs_witness :
    ([NElem.noteE 60 false, NElem.noteE 60 true])[0]? =
        some (NElem.noteE 60 false) ∧
    ([NElem.noteE 60 false, NElem.noteE 60 true])[1]? =
        some (NElem.noteE 60 true) ∧
    tiePairCond (NElem.noteE 60 false) (NElem.noteE 60 true) = true ∧
    ((applyTies [NElem.noteE 60 false, NElem.noteE 60 true])[0]? =
        some (setTieStart (NElem.noteE 60 false)) ∧
      ∃ a2, (applyTies [NElem.noteE 60 false, NElem.noteE 60 true])[0]? =
          some a2 ∧ hasTieStart a2 = true) :=
  ⟨by decide, by decide, by decide,
    applyTies_marks_pairs [NElem.noteE 60 false, NElem.noteE 60 true] 0
      (NElem.noteE 60 false) (NElem.noteE 60 true)
      (by decide) (by decide) (by decide)⟩

/-- C9 counterexample: a Note followed by a single-note Chord has
identical pitch content, yet `_applyTies` leaves the earlier event without
a tie-start marker, because the guard requires both elements to be of the
same kind. -/
theorem applyTies_mixed_pair_counterexample :
    pitchContent (NElem.noteE 60 false) = pitchContent (NElem.chordE [60] false) ∧
    applyTies [NElem.noteE 60 false, NElem.chordE [60] false] =
      [NElem.noteE 60 false, NElem.chordE [60] false] ∧
    (applyTies [NElem.noteE 60 false, NElem.chordE [60] false])[0]? =
      some (NElem.noteE 60 false) ∧
    hasTieStart (NElem.noteE 60 false) = false := by
  refine ⟨rfl, ?_, ?_, rfl⟩ <;> rfl

/-- C1 counterexample: `__call__` runs `fillBassGaps` twice (after the
dissonance pass and again after the short-timespan pass), and runs
`alignHockets` before `fillInnerMeasureGaps`, so the pipeline is not the
claimed six-pass once-each sequence. -/
theorem callPassSequence_counterexample :
    callPassSequence.count ReductionPass.fillBassGapsP = 2 ∧
    callPassSequence.length = 7 ∧
    callPassSequence ≠ specClaimedPassSequence := by
  refine ⟨?_, ?_, ?_⟩ <;> decide

/-- C1 amended: the full reduction pipeline applies exactly seven pass
invocations in the fixed order dissonance removal, bass-gap filling,
short-timespan pruning, bass-gap filling again, outer measure-gap
filling, hocket alignment, inner measure-gap filling: `fillBassGaps` runs
twice and every other pass exactly once, and the order is not varied. -/
theorem callPassSequence_amended :
    callPassSequence =
      [.removeVerticalDissonancesP, .fillBassGapsP, .removeShortTimespansP,
       .fillBassGapsP, .fillOuterMeasureGapsP, .alignHocketsP,
       .fillInnerMeasureGapsP] ∧
    callPassSequence.count ReductionPass.removeVerticalDissonancesP = 1 ∧
    callPassSequence.count ReductionPass.fillBassGapsP = 2 ∧
    callPassSequence.count ReductionPass.removeShortTimespansP = 1 ∧
    callPassSequence.count ReductionPass.fillOuterMeasureGapsP = 1 ∧
    callPassSequence.count ReductionPass.alignHocketsP = 1 ∧
    callPassSequence.count ReductionPass.fillInnerMeasureGapsP = 1 := by
  refine ⟨rfl, ?_, ?_, ?_, ?_, ?_, ?_⟩ <;> decide

theorem vertPitchSet_mem (tree : List Timespan) (o : ℚ) (x : Nat) :
    x ∈ vertPitchSet tree o ↔ ∃ ts ∈ activeAt tree o, x ∈ ts.pitches := by
  unfold vertPitchSet
  rw [mem_dedupAdj]
  unfold sortNat
  rw [mem_insSort]
  simp only [List.mem_flatten, List.mem_map]
  constructor
  · rintro ⟨l, ⟨ts, hts, rfl⟩, hx⟩
    exact ⟨ts, hts, hx⟩
  · rintro ⟨ts, hts, hx⟩
    exact ⟨ts.pitches, ⟨ts, hts, rfl⟩, hx⟩

/-- C2: `removeVerticalDissonances` folds the per-verticality step over
the tree's start offsets; a step at a consonant verticality leaves the
tree unchanged, and a step at a dissonant verticality removes exactly
those timespans starting there whose minimum pitch differs from the
minimum of the verticality's whole pitch set — timespans carrying the
lowest pitch, and timespans not starting at that offset, are kept. -/
theorem removeVerticalDissonances_spec (cons : List Nat → Bool)
    (tree : List Timespan) (hp : ∀ ts ∈ tree, ts.pitches ≠ []) (o : ℚ)
    (ho : ∃ ts ∈ tree, ts.startOffset = o) :
    removeVerticalDissonances cons tree =
      (startOffsetsOf tree).foldl (dissonanceStep cons) tree ∧
    (cons (vertPitchSet tree o) = true → dissonanceStep cons tree o = tree) ∧
    (cons (vertPitchSet tree o) = false →
      ∃ low, (vertPitchSet tree o).min? = some low ∧
        ∀ ts ∈ tree, (ts ∈ dissonanceStep cons tree o ↔
          ¬(ts.startOffset = o ∧ ts.pitches.min? ≠ some low))) := by
  refine ⟨rfl, ?_, ?_⟩
  · intro hcons
    unfold dissonanceStep
    rw [if_pos hcons]
  · intro hcons
    obtain ⟨ts0, hts0, hso0⟩ := ho
    have hts0a : ts0 ∈ activeAt tree o := by
      unfold activeAt
      rw [List.mem_filter]
      exact ⟨hts0, by simp [hso0]⟩
    obtain ⟨p0, hp0⟩ : ∃ p0, p0 ∈ ts0.pitches := by
      cases hpit : ts0.pitches with
      | nil => exact absurd hpit (hp ts0 hts0)
      | cons q qs => exact ⟨q, by simp [hpit]⟩
    have hvne : vertPitchSet tree o ≠ [] := by
      intro hnil
      have := (vertPitchSet_mem tree o p0).mpr ⟨ts0, hts0a, hp0⟩
      rw [hnil] at this
      simp at this
    obtain ⟨low, hlow⟩ : ∃ low, (vertPitchSet tree o).min? = some low := by
      cases hv : vertPitchSet tree o with
      | nil => exact absurd hv hvne
      | cons q qs => exact ⟨_, rfl⟩
    refine ⟨low, hlow, ?_⟩
    intro ts hts
    unfold dissonanceStep
    rw [if_neg (by simp [hcons]), List.mem_filter]
    rw [hlow]
    simp [hts]
    tauto

/-- Witness for C2 at a concrete input. -/
theorem removeVerticalDissonances_spec_witness :
    (∀ ts ∈ dissTree, ts.pitches ≠ []) ∧
    (∃ ts ∈ dissTree, ts.startOffset = 0) ∧
    (removeVerticalDissonances consAtMostOne dissTree =
        (startOffsetsOf dissTree).foldl (dissonanceStep consAtMostOne) dissTree ∧
      (consAtMostOne (vertPitchSet dissTree 0) = true →
        dissonanceStep consAtMostOne dissTree 0 = dissTree) ∧
      (consAtMostOne (vertPitchSet dissTree 0) = false →
        ∃ low, (vertPitchSet dissTree 0).min? = some low ∧
          ∀ ts ∈ dissTree, (ts ∈ dissonanceStep consAtMostOne dissTree 0 ↔
            ¬(ts.startOffset = 0 ∧ ts.pitches.min? ≠ some low)))) := by
  refine ⟨?_, ?_, ?_⟩
  · intro ts hts
    simp only [dissTree, List.mem_cons, List.not_mem_nil, or_false] at hts
    rcases hts with rfl | rfl <;> simp [tsLow, tsHigh]
  · exact ⟨tsLow, List.mem_cons_self _ _, rfl⟩
  · exact removeVerticalDissonances_spec consAtMostOne dissTree
      (by intro ts hts
          simp only [dissTree, List.mem_cons, List.not_mem_nil, or_false] at hts
          rcases hts with rfl | rfl <;> simp [tsLow, tsHigh])
      0 ⟨tsLow, List.mem_cons_self _ _, rfl⟩

/-- End-to-end evaluation of the dissonance pass on `dissTree`: the upper
dissonant timespan is removed, the bass-supporting one kept. -/
theorem removeVerticalDissonances_example :
    removeVerticalDissonances consAtMostOne dissTree = [tsLow] := by
  norm_num [removeVerticalDissonances, startOffsetsOf, dissonanceStep, dissTree,
    tsLow, tsHigh, consAtMostOne, vertPitchSet, activeAt, sortNat, dedupAdj,
    insSort, insertLe, List.min?, List.foldl]

/-- C7: evaluating `removeShortTimespans` at the failing input.  `tsV`
has duration `5`, at or above the threshold `4`, yet it is removed: after
measure 1's entire-measure collapse the threshold in force is the best
cumulative duration `6`, not the caller's `4`.  (Per the docstring, only
`tsB` should have been removed.) -/
theorem removeShort_threshold_drift :
    tsDuration tsV = 5 ∧ (4 : ℚ) ≤ tsDuration tsV ∧
    tsV ∈ driftTree ∧
    removeShortTimespans driftTree 4 = [tsA, tsC, tsE, tsX] ∧
    tsV ∉ removeShortTimespans driftTree 4 := by
  refine ⟨by norm_num [tsDuration, tsV], by norm_num [tsDuration, tsV],
    by simp [driftTree], ?_, ?_⟩ <;>
    norm_num [removeShortTimespans, removeShortGo, partIdsOf, partTimespansOf,
      partShortRemovals, groupShortGo, processShortGroup, shortKey,
      bassTimespanAt, mostCommon, vertPitchSet, activeAt, sortNat, dedupAdj,
      insSort, insertLe, weightDescLe, addWeight, tsDuration, driftTree,
      tsA, tsB, tsC, tsE, tsX, tsV, List.min?, List.getLastD]

end ReduceChords

